import Mathlib

/-!
Shallow embedding of the ClaudeMonitor projection engine
(src/overlay/projection_algorithms.py) together with the historical-data
trimming (src/shared/data_schema.py and the scraper), and proofs of the
specified properties of those functions.

Modelling conventions:
* Python floats are modelled as rationals; arithmetic is exact.
* Instants are rationals measured in hours, so adding a timedelta of h
  hours is addition by h; the wall-clock now is an explicit parameter.
* A history point (a Python dict of usage fields) is an association list
  from field names to rationals; point.get(field, 0) is lookup with
  default 0.
* An ISO-timestamp argument that may fail to parse is an Option; none is
  the unparseable case.
* Python round(x, ndigits) is round-half-even at ndigits decimal digits.
* Python default arguments (window = 12, cap_limit = 100.0) are passed
  explicitly at each call site.
-/

namespace ClaudeMonitor

/-- Round-half-even on rationals: the semantics of Python round to an
integer. Values with fractional part below one half round down, above one
half round up, and exact halves round to the even neighbour. -/
def roundHalfEven (x : ℚ) : ℤ :=
  let f := ⌊x⌋
  let frac := x - f
  if frac < 1/2 then f
  else if 1/2 < frac then f + 1
  else if f % 2 = 0 then f else f + 1

/-- Python round(x, 2) on rationals. -/
def round2 (x : ℚ) : ℚ := (roundHalfEven (x * 100) : ℚ) / 100

/-- Python round(x, 1) on rationals. -/
def round1 (x : ℚ) : ℚ := (roundHalfEven (x * 10) : ℚ) / 10

/-- Simple moving average, from calculate_sma in
src/overlay/projection_algorithms.py: clamp the window to the length of the
data, return 0.0 on a zero effective window, and otherwise average the
slice data_points[-window:]. The window is the count of trailing points,
a natural number. -/
def calculate_sma (data_points : List ℚ) (window : ℕ) : ℚ :=
  let w := if data_points.length < window then data_points.length else window
  if w = 0 then 0
  else
    let recent := data_points.drop (data_points.length - w)
    recent.sum / (recent.length : ℚ)

/-- Confidence tier, from determine_confidence in
src/overlay/projection_algorithms.py: at least 24 points is high, at least
12 is medium, otherwise low. -/
def determine_confidence (data_point_count : ℤ) : String :=
  if 24 ≤ data_point_count then "high"
  else if 12 ≤ data_point_count then "medium"
  else "low"

/-- Last k elements of a list: the Python slice l[-k:] for 0 < k ≤ len(l). -/
def takeLast (l : List ℚ) (k : ℕ) : List ℚ := l.drop (l.length - k)

/-- A history point: one entry of historicalData, a Python dict of usage
fields, modelled as an association list from field names to rationals. -/
abbrev HistPoint := List (String × ℚ)

/-- Dict field access with default 0: the Python point.get(field, 0). -/
def hget (p : HistPoint) (field : String) : ℚ := (p.lookup field).getD 0

/-- Linear-regression trend, from calculate_trend in
src/overlay/projection_algorithms.py: pair each history point with its
0-based index, extract the requested cap field with default 0, form the
least-squares sums, return 0.0 when fewer than 2 points or when the
denominator is zero, convert the per-sample slope to a per-hour rate
(12 five-minute samples per hour), and round to 2 decimal digits. -/
def calculate_trend (historical_data : List HistPoint) (cap_type : String) : ℚ :=
  if historical_data.length < 2 then 0
  else
    let points := historical_data.enum.map
      (fun q => ((q.1 : ℚ), hget q.2 cap_type))
    let n : ℚ := (points.length : ℚ)
    let sum_x := (points.map (fun q => q.1)).sum
    let sum_y := (points.map (fun q => q.2)).sum
    let sum_xy := (points.map (fun q => q.1 * q.2)).sum
    let sum_x2 := (points.map (fun q => q.1 * q.1)).sum
    let denominator := n * sum_x2 - sum_x * sum_x
    if denominator = 0 then 0
    else
      let slope := (n * sum_xy - sum_x * sum_y) / denominator
      round2 (slope * 12)

/-- The per-hour rate exactly as the specification words it (spec 4.1,
linearRate): the ordinary-least-squares slope of the values against their
0-based index, in the closed form with n, Σx, Σy, Σxy, Σx², multiplied by
samplesPerHour and rounded to 2 decimal digits; 0.0 when fewer than 2
values or when the OLS denominator n·Σx² − (Σx)² is zero. -/
def linearRate_spec (values : List ℚ) (samplesPerHour : ℚ) : ℚ :=
  if values.length < 2 then 0
  else
    let n : ℚ := (values.length : ℚ)
    let sx := ∑ i ∈ Finset.range values.length, (i : ℚ)
    let sy := ∑ i ∈ Finset.range values.length, values.getD i 0
    let sxy := ∑ i ∈ Finset.range values.length, (i : ℚ) * values.getD i 0
    let sx2 := ∑ i ∈ Finset.range values.length, (i : ℚ) * (i : ℚ)
    if n * sx2 - sx * sx = 0 then 0
    else round2 ((n * sxy - sx * sy) / (n * sx2 - sx * sx) * samplesPerHour)

/-- Arithmetic sequence a, a + d, a + 2d, ..., of length n. -/
def arithSeq (a d : ℚ) (n : ℕ) : List ℚ :=
  (List.range n).map (fun i : ℕ => a + d * (i : ℚ))

/-- History whose points each carry exactly the field c, with the given
values. -/
def mkHistory (c : String) (vs : List ℚ) : List HistPoint :=
  vs.map (fun v => [(c, v)])

/-- Time-to-cap estimate, from estimate_time_to_cap in
src/overlay/projection_algorithms.py. Instants are rational hours, so the
returned instant is now plus the hours to cap, standing for the ISO
timestamp of datetime.now plus timedelta(hours); none is the Python
None. cap_limit defaults to 100 in the source and is passed explicitly
here. -/
def estimate_time_to_cap (now current_usage rate_per_hour cap_limit : ℚ) :
    Option ℚ :=
  if rate_per_hour ≤ 0 then none
  else
    let remaining := cap_limit - current_usage
    if remaining ≤ 0 then none
    else
      let hours_to_cap := remaining / rate_per_hour
      if hours_to_cap < 0 then none
      else some (now + hours_to_cap)

/-- Projection at a target time, from calculate_projection_at_time in
src/overlay/projection_algorithms.py. The target_time string argument is
modelled as an Option: none is an ISO timestamp that fails to parse, so
the try/except fallback returns current_usage; some t is a parsed instant
in rational hours. -/
def calculate_projection_at_time (now current_usage rate_per_hour : ℚ)
    (target_time : Option ℚ) (cap_limit : ℚ) : ℚ :=
  match target_time with
  | none => current_usage
  | some target_dt =>
    let hours_until_target := target_dt - now
    if hours_until_target < 0 then current_usage
    else min (current_usage + rate_per_hour * hours_until_target) cap_limit

/-- Per-cap entry of currentState. usagePercent is
cap_data.get(usagePercent, 0), already defaulted to 0; resetTime is
cap_data.get(resetTime), none when absent, some t for an instant in
rational hours. -/
structure CapData where
  usagePercent : ℚ
  resetTime : Option ℚ
deriving DecidableEq

/-- The data structure read by calculate_projections: the historicalData
array and the currentState mapping from cap type to CapData, an
insertion-ordered association list standing for the Python dict. -/
structure MonitorData where
  historicalData : List HistPoint
  currentState : List (String × CapData)
deriving DecidableEq

/-- One per-cap projection record as built by calculate_projections.
averageRatePerDay is an Option because the source adds this key only for
week-based caps. -/
structure ProjectionData where
  averageRatePerHour : ℚ
  projectedUsageAtReset : ℚ
  estimatedTimeToLimit : Option ℚ
  confidence : String
  sma : ℚ
  averageRatePerDay : Option ℚ
deriving DecidableEq

/-- The three cap types iterated by calculate_projections, in source
order. -/
def cap_types : List String := ["fourHour", "oneWeek", "opusOneWeek"]

/-- Char-list version: needle occurs at the start of hay. -/
def prefixAt : List Char → List Char → Bool
  | [], _ => true
  | _ :: _, [] => false
  | c :: cs, d :: ds => (c == d) && prefixAt cs ds

/-- Char-list version: needle occurs somewhere in hay. -/
def subIn (needle : List Char) : List Char → Bool
  | [] => prefixAt needle []
  | d :: ds => prefixAt needle (d :: ds) || subIn needle ds

/-- The Python membership test of the string Week inside cap_type. -/
def hasWeek (s : String) : Bool := subIn "Week".toList s.toList

/-- Body of the per-cap loop of calculate_projections
(src/overlay/projection_algorithms.py): read the cap entry of
currentState (missing caps behave as an empty dict: usage 0, no
resetTime), skip the cap entirely (continue) when resetTime is absent,
and otherwise assemble the projection record; averageRatePerDay is added
only when Week occurs in the cap type. -/
def projection_for_cap (now : ℚ) (historical : List HistPoint)
    (current_state : List (String × CapData)) (cap_type : String) :
    Option ProjectionData :=
  let cap_data := (current_state.lookup cap_type).getD ⟨0, none⟩
  let current := cap_data.usagePercent
  match cap_data.resetTime with
  | none => none
  | some reset_time =>
    let rate_per_hour := calculate_trend historical cap_type
    let recent_values := (historical.drop (historical.length - 12)).map
      (fun p => hget p cap_type)
    let sma := calculate_sma recent_values 12
    let time_to_cap := estimate_time_to_cap now current rate_per_hour 100
    let projected_at_reset :=
      calculate_projection_at_time now current rate_per_hour
        (some reset_time) 100
    let confidence := determine_confidence (historical.length : ℤ)
    let base : ProjectionData :=
      { averageRatePerHour := rate_per_hour
        projectedUsageAtReset := round1 projected_at_reset
        estimatedTimeToLimit := time_to_cap
        confidence := confidence
        sma := round1 sma
        averageRatePerDay := none }
    some (if hasWeek cap_type then
      { base with averageRatePerDay := some (round2 (rate_per_hour * 24)) }
    else base)

/-- calculate_projections from src/overlay/projection_algorithms.py:
none when fewer than 2 historical points, none when currentState is empty
(the falsy-dict check), and otherwise the projection mapping assembled by
the loop over the three cap types, caps without a resetTime skipped. -/
def calculate_projections (now : ℚ) (data : MonitorData) :
    Option (List (String × ProjectionData)) :=
  let historical := data.historicalData
  if historical.length < 2 then none
  else if data.currentState = [] then none
  else
    some (cap_types.filterMap (fun cap_type =>
      (projection_for_cap now historical data.currentState cap_type).map
        (fun p => (cap_type, p))))

/-- Maximum retained historical points, from DataSchema in
src/shared/data_schema.py: 7 days times 24 hours times 12 five-minute
samples. -/
def MAX_HISTORICAL_POINTS : ℕ := 2016

/-- Trimming of historicalData, from DataSchema.trim_historical_data in
src/shared/data_schema.py: when the length exceeds the bound, keep the
Python slice historicalData[-MAX_HISTORICAL_POINTS:], otherwise return the
data unchanged. -/
def trim_historical_data (historical : List HistPoint) : List HistPoint :=
  if MAX_HISTORICAL_POINTS < historical.length then
    historical.drop (historical.length - MAX_HISTORICAL_POINTS)
  else historical

/-- The unconditional slice historical[-2016:] applied after appending a
point in src/src/scraper/claude_usage_monitor.py. -/
def trim_slice (historical : List HistPoint) : List HistPoint :=
  historical.drop (historical.length - 2016)

/-- State-passing form of calculate_sma for the frame property: the input
list stands for the mutable Python list object, threaded as state through
the call; every statement of the source reads it (length, slicing, sum)
and none writes it, so the call returns the state it received alongside
the value. -/
def calculate_sma_state (data_points : List ℚ) (window : ℕ) :
    ℚ × List ℚ :=
  let w := if data_points.length < window then data_points.length else window
  if w = 0 then (0, data_points)
  else
    let recent := data_points.drop (data_points.length - w)
    (recent.sum / (recent.length : ℚ), data_points)

/-- State-passing form of calculate_trend: the history list is threaded
as state; enumerating points and forming the four sums only read it. -/
def calculate_trend_state (historical_data : List HistPoint)
    (cap_type : String) : ℚ × List HistPoint :=
  if historical_data.length < 2 then (0, historical_data)
  else
    let points := historical_data.enum.map
      (fun q => ((q.1 : ℚ), hget q.2 cap_type))
    let n : ℚ := (points.length : ℚ)
    let sum_x := (points.map (fun q => q.1)).sum
    let sum_y := (points.map (fun q => q.2)).sum
    let sum_xy := (points.map (fun q => q.1 * q.2)).sum
    let sum_x2 := (points.map (fun q => q.1 * q.1)).sum
    let denominator := n * sum_x2 - sum_x * sum_x
    if denominator = 0 then (0, historical_data)
    else
      let slope := (n * sum_xy - sum_x * sum_y) / denominator
      (round2 (slope * 12), historical_data)

/-- State-passing form of calculate_projections: the historicalData list
inside data is the state; the guards and the per-cap loop body read it
through length, slicing and field extraction only. -/
def calculate_projections_state (now : ℚ) (data : MonitorData) :
    Option (List (String × ProjectionData)) × List HistPoint :=
  let historical := data.historicalData
  if historical.length < 2 then (none, historical)
  else if data.currentState = [] then (none, historical)
  else
    (some (cap_types.filterMap (fun cap_type =>
      (projection_for_cap now historical data.currentState cap_type).map
        (fun p => (cap_type, p)))), historical)

/-- C1: calculate_sma returns 0.0 on empty input; on non-empty input with a
positive window it returns the arithmetic mean of the last
min(window, length) elements; consequently for window at least the length
it agrees with calculate_sma at window = length (the window clamps). -/
theorem sma_mean_of_clamped_window (values : List ℚ) (window : ℕ) :
    (values = [] → calculate_sma values window = 0) ∧
    (values ≠ [] → 1 ≤ window →
      calculate_sma values window =
        (takeLast values (min window values.length)).sum
          / ((min window values.length : ℕ) : ℚ)) ∧
    (values ≠ [] → values.length ≤ window →
      calculate_sma values window = calculate_sma values values.length) := by
  refine ⟨?_, ?_, ?_⟩
  · intro h
    subst h
    simp [calculate_sma]
  · intro hne hw
    have hlen : 0 < values.length := List.length_pos.mpr hne
    unfold calculate_sma takeLast
    by_cases hlt : values.length < window
    · have hmin : min window values.length = values.length := by omega
      rw [if_pos hlt, hmin]
      have hw0 : ¬ values.length = 0 := by omega
      rw [if_neg hw0]
      have h1 : values.length - values.length = 0 := by omega
      rw [h1, List.drop_zero]
    · have hmin : min window values.length = window := by omega
      rw [if_neg hlt, hmin]
      have hw0 : ¬ window = 0 := by omega
      rw [if_neg hw0]
      have h1 : (values.drop (values.length - window)).length = window := by
        rw [List.length_drop]
        omega
      simp only [h1]
  · intro hne hge
    unfold calculate_sma
    have hw : (if values.length < window then values.length else window)
        = values.length := by
      by_cases h : values.length < window
      · simp [h]
      · simp [h]; omega
    have hw2 : (if values.length < values.length then values.length
        else values.length) = values.length := by simp
    rw [hw, hw2]

/-- Witness for C1 at values [10, 20, 30] and window 12. -/
theorem sma_mean_of_clamped_window_witness :
    calculate_sma [10, 20, 30] 12 =
      (takeLast [10, 20, 30] (min 12 (List.length ([10, 20, 30] : List ℚ)))).sum
        / ((min 12 (List.length ([10, 20, 30] : List ℚ)) : ℕ) : ℚ) ∧
    calculate_sma [10, 20, 30] 12 = calculate_sma [10, 20, 30] 3 := by
  constructor
  · exact (sma_mean_of_clamped_window [10, 20, 30] 12).2.1 (by decide) (by decide)
  · exact (sma_mean_of_clamped_window [10, 20, 30] 12).2.2 (by decide) (by decide)

/-- C6: determine_confidence returns high exactly on counts at least 24,
medium exactly on counts in [12, 24), and low exactly on counts below 12. -/
theorem confidence_thresholds (n : ℤ) :
    (determine_confidence n = "high" ↔ 24 ≤ n) ∧
    (determine_confidence n = "medium" ↔ 12 ≤ n ∧ n < 24) ∧
    (determine_confidence n = "low" ↔ n < 12) := by
  unfold determine_confidence
  by_cases h24 : 24 ≤ n
  · rw [if_pos h24]
    exact ⟨⟨fun _ => h24, fun _ => rfl⟩,
      ⟨fun h => absurd h (by decide), fun h => absurd h.2 (by omega)⟩,
      ⟨fun h => absurd h (by decide), fun h => absurd h24 (by omega)⟩⟩
  · rw [if_neg h24]
    by_cases h12 : 12 ≤ n
    · rw [if_pos h12]
      exact ⟨⟨fun h => absurd h (by decide), fun h => absurd h h24⟩,
        ⟨fun _ => ⟨h12, by omega⟩, fun _ => rfl⟩,
        ⟨fun h => absurd h (by decide), fun h => absurd h12 (by omega)⟩⟩
    · rw [if_neg h12]
      exact ⟨⟨fun h => absurd h (by decide), fun h => absurd h h24⟩,
        ⟨fun h => absurd h (by decide), fun h => absurd h.1 h12⟩,
        ⟨fun _ => by omega, fun _ => rfl⟩⟩

/-- Sum of a function of index and element over an enumerated list, as a
Finset.range sum; the enumeration starts at k. -/
theorem sum_map_enumFrom {α : Type} (f : ℕ → α → ℚ) (d : α) (l : List α) :
    ∀ k : ℕ,
      ((List.enumFrom k l).map (fun q => f q.1 q.2)).sum
        = ∑ i ∈ Finset.range l.length, f (k + i) (l.getD i d) := by
  induction l with
  | nil => intro k; simp
  | cons a l ih =>
    intro k
    rw [List.enumFrom_cons, List.map_cons, List.sum_cons, List.length_cons,
      Finset.sum_range_succ', ih (k + 1)]
    simp only [List.getD_cons_succ, List.getD_cons_zero, Nat.add_zero]
    rw [add_comm]
    congr 1
    apply Finset.sum_congr rfl
    intro i _
    congr 1
    omega

/-- Sum of a function of index and element over List.enum, as a
Finset.range sum. -/
theorem sum_map_enum {α : Type} (f : ℕ → α → ℚ) (d : α) (l : List α) :
    (l.enum.map (fun q => f q.1 q.2)).sum
      = ∑ i ∈ Finset.range l.length, f i (l.getD i d) := by
  have h0 : l.enum = List.enumFrom 0 l := rfl
  rw [h0, sum_map_enumFrom f d l 0]
  simp

/-- Reading position i of the extracted value list equals extracting from
the history point at position i, for i in range. -/
theorem getD_map_value (h : List HistPoint) (c : String) (i : ℕ)
    (hi : i < h.length) :
    (h.map (fun p => hget p c)).getD i 0 = hget (h.getD i []) c := by
  have h1 : h[i]? = some h[i] := List.getElem?_eq_getElem hi
  rw [List.getD_eq_getElem?_getD, List.getElem?_map, h1,
    List.getD_eq_getElem?_getD, h1]
  rfl

/-- calculate_trend agrees with the specification formula applied to the
sequence of extracted values (missing fields contributing 0). -/
theorem trend_eq_spec (h : List HistPoint) (c : String) :
    calculate_trend h c = linearRate_spec (h.map (fun p => hget p c)) 12 := by
  simp only [calculate_trend, linearRate_spec, List.length_map,
    List.enum_length]
  by_cases hlen : h.length < 2
  · rw [if_pos hlen, if_pos hlen]
  · rw [if_neg hlen, if_neg hlen]
    have hx : ((h.enum.map (fun q => ((q.1 : ℚ), hget q.2 c))).map
        (fun q => q.1)).sum = ∑ i ∈ Finset.range h.length, (i : ℚ) := by
      rw [List.map_map]
      exact sum_map_enum (fun i a => (i : ℚ)) [] h
    have hy : ((h.enum.map (fun q => ((q.1 : ℚ), hget q.2 c))).map
        (fun q => q.2)).sum
        = ∑ i ∈ Finset.range h.length, hget (h.getD i []) c := by
      rw [List.map_map]
      exact sum_map_enum (fun i a => hget a c) [] h
    have hxy : ((h.enum.map (fun q => ((q.1 : ℚ), hget q.2 c))).map
        (fun q => q.1 * q.2)).sum
        = ∑ i ∈ Finset.range h.length, (i : ℚ) * hget (h.getD i []) c := by
      rw [List.map_map]
      exact sum_map_enum (fun i a => (i : ℚ) * hget a c) [] h
    have hx2 : ((h.enum.map (fun q => ((q.1 : ℚ), hget q.2 c))).map
        (fun q => q.1 * q.1)).sum
        = ∑ i ∈ Finset.range h.length, (i : ℚ) * (i : ℚ) := by
      rw [List.map_map]
      exact sum_map_enum (fun i a => (i : ℚ) * (i : ℚ)) [] h
    have gy : (∑ i ∈ Finset.range h.length,
        (h.map (fun p => hget p c)).getD i 0)
        = ∑ i ∈ Finset.range h.length, hget (h.getD i []) c :=
      Finset.sum_congr rfl fun i hi =>
        getD_map_value h c i (Finset.mem_range.mp hi)
    have gxy : (∑ i ∈ Finset.range h.length,
        (i : ℚ) * (h.map (fun p => hget p c)).getD i 0)
        = ∑ i ∈ Finset.range h.length, (i : ℚ) * hget (h.getD i []) c :=
      Finset.sum_congr rfl fun i hi => by
        rw [getD_map_value h c i (Finset.mem_range.mp hi)]
    rw [hx, hy, hxy, hx2, gy, gxy]

/-- C2: for every history list and cap field, calculate_trend returns the
ordinary-least-squares slope of the extracted values against their 0-based
index, in the closed form (n·Σxy − Σx·Σy)/(n·Σx² − (Σx)²), multiplied by
12 samples per hour and rounded (half-even) to 2 decimal digits; it
returns exactly 0.0 when the list has fewer than 2 elements, and 0.0
whenever the OLS denominator is zero. -/
theorem trend_is_rounded_ols_rate (h : List HistPoint) (c : String) :
    calculate_trend h c = linearRate_spec (h.map (fun p => hget p c)) 12 ∧
    (h.length < 2 → calculate_trend h c = 0) ∧
    ((h.length : ℚ) * (∑ i ∈ Finset.range h.length, (i : ℚ) * (i : ℚ))
        - (∑ i ∈ Finset.range h.length, (i : ℚ))
          * (∑ i ∈ Finset.range h.length, (i : ℚ)) = 0 →
      calculate_trend h c = 0) := by
  refine ⟨trend_eq_spec h c, ?_, ?_⟩
  · intro hlen
    simp only [calculate_trend, if_pos hlen]
  · intro hden
    rw [trend_eq_spec h c]
    simp only [linearRate_spec, List.length_map]
    by_cases hlen : h.length < 2
    · rw [if_pos hlen]
    · rw [if_neg hlen, if_pos hden]

/-- Witness for C2: a one-point history has fewer than 2 samples, and an
empty history has a zero OLS denominator; both give rate 0.0. -/
theorem trend_is_rounded_ols_rate_witness :
    calculate_trend [[("fourHour", 10)]] "fourHour" = 0 ∧
    calculate_trend ([] : List HistPoint) "fourHour" = 0 := by
  constructor
  · exact (trend_is_rounded_ols_rate [[("fourHour", 10)]] "fourHour").2.1
      (by decide)
  · exact (trend_is_rounded_ols_rate [] "fourHour").2.2 (by simp)

/-- Gauss sum over Finset.range, in the rationals. -/
theorem sum_range_cast_id (n : ℕ) :
    (∑ i ∈ Finset.range n, (i : ℚ)) = (n : ℚ) * ((n : ℚ) - 1) / 2 := by
  induction n with
  | zero => simp
  | succ m ih =>
    rw [Finset.sum_range_succ, ih]
    push_cast
    ring

/-- Sum of squares over Finset.range, in the rationals. -/
theorem sum_range_cast_sq (n : ℕ) :
    (∑ i ∈ Finset.range n, (i : ℚ) * (i : ℚ))
      = (n : ℚ) * ((n : ℚ) - 1) * (2 * (n : ℚ) - 1) / 6 := by
  induction n with
  | zero => simp
  | succ m ih =>
    rw [Finset.sum_range_succ, ih]
    push_cast
    ring

/-- Reading position i of a mapped range list, for i below n. -/
theorem getD_range_map (f : ℕ → ℚ) (n i : ℕ) (hi : i < n) :
    ((List.range n).map f).getD i 0 = f i := by
  have h1 : (List.range n)[i]? = some i := List.getElem?_range hi
  rw [List.getD_eq_getElem?_getD, List.getElem?_map, h1]
  rfl

/-- Extracting the field c from a singleton point carrying c. -/
theorem hget_single (c : String) (v : ℚ) : hget [(c, v)] c = v := by
  simp [hget, List.lookup]

/-- Extracting values back out of mkHistory returns the original list. -/
theorem mkHistory_values (c : String) (vs : List ℚ) :
    (mkHistory c vs).map (fun p => hget p c) = vs := by
  unfold mkHistory
  rw [List.map_map]
  have h1 : ∀ v ∈ vs, ((fun p => hget p c) ∘ fun v => [(c, v)]) v = id v := by
    intro v _
    simp [hget_single]
  rw [List.map_congr_left h1, List.map_id]

/-- The specification rate of an arithmetic sequence of length at least 2
is the rounded per-hour slope: the OLS slope of a + d·i against i is d. -/
theorem linearRate_spec_arith (a d : ℚ) (n : ℕ) (hn : 2 ≤ n) :
    linearRate_spec (arithSeq a d n) 12 = round2 (d * 12) := by
  have hlen : (arithSeq a d n).length = n := by
    unfold arithSeq
    rw [List.length_map, List.length_range]
  simp only [linearRate_spec, hlen]
  have hnot : ¬ n < 2 := by omega
  have hgetD : ∀ i ∈ Finset.range n, (arithSeq a d n).getD i 0
      = a + d * (i : ℚ) := by
    intro i hi
    unfold arithSeq
    exact getD_range_map (fun j => a + d * (j : ℚ)) n i (Finset.mem_range.mp hi)
  rw [if_neg hnot]
  have hsy : (∑ i ∈ Finset.range n, (arithSeq a d n).getD i 0)
      = (n : ℚ) * a + d * ((n : ℚ) * ((n : ℚ) - 1) / 2) := by
    rw [Finset.sum_congr rfl hgetD, Finset.sum_add_distrib, Finset.sum_const,
      Finset.card_range, ← Finset.mul_sum, sum_range_cast_id]
    ring
  have hsxy : (∑ i ∈ Finset.range n, (i : ℚ) * (arithSeq a d n).getD i 0)
      = a * ((n : ℚ) * ((n : ℚ) - 1) / 2)
        + d * ((n : ℚ) * ((n : ℚ) - 1) * (2 * (n : ℚ) - 1) / 6) := by
    have h2 : ∀ i ∈ Finset.range n, (i : ℚ) * (arithSeq a d n).getD i 0
        = a * (i : ℚ) + d * ((i : ℚ) * (i : ℚ)) := by
      intro i hi
      rw [hgetD i hi]
      ring
    rw [Finset.sum_congr rfl h2, Finset.sum_add_distrib, ← Finset.mul_sum,
      ← Finset.mul_sum, sum_range_cast_id, sum_range_cast_sq]
  rw [hsy, hsxy, sum_range_cast_id, sum_range_cast_sq]
  have hden : (n : ℚ) * ((n : ℚ) * ((n : ℚ) - 1) * (2 * (n : ℚ) - 1) / 6)
      - (n : ℚ) * ((n : ℚ) - 1) / 2 * ((n : ℚ) * ((n : ℚ) - 1) / 2)
      = (n : ℚ) ^ 2 * ((n : ℚ) ^ 2 - 1) / 12 := by
    ring
  rw [hden]
  have hnq : (2 : ℚ) ≤ (n : ℚ) := by exact_mod_cast hn
  have h5 : (4 : ℚ) ≤ (n : ℚ) ^ 2 := by nlinarith
  have h6 : (0 : ℚ) < (n : ℚ) ^ 2 * ((n : ℚ) ^ 2 - 1) := by nlinarith
  have hpos : (0 : ℚ) < (n : ℚ) ^ 2 * ((n : ℚ) ^ 2 - 1) / 12 :=
    div_pos h6 (by norm_num)
  rw [if_neg (ne_of_gt hpos)]
  congr 1
  have hne : (n : ℚ) ^ 2 * ((n : ℚ) ^ 2 - 1) / 12 ≠ 0 := ne_of_gt hpos
  field_simp
  ring

/-- calculate_trend of a history built from an arithmetic value sequence
of length at least 2 equals the rounded per-hour slope. -/
theorem trend_arith (c : String) (a d : ℚ) (n : ℕ) (hn : 2 ≤ n) :
    calculate_trend (mkHistory c (arithSeq a d n)) c = round2 (d * 12) := by
  rw [trend_eq_spec, mkHistory_values, linearRate_spec_arith a d n hn]

/-- Round-half-even of a rational at least 1 is positive. -/
theorem roundHalfEven_pos {x : ℚ} (hx : 1 ≤ x) : 0 < roundHalfEven x := by
  have hf : 1 ≤ ⌊x⌋ := Int.le_floor.mpr (by exact_mod_cast hx)
  simp only [roundHalfEven]
  split
  · omega
  · split
    · omega
    · split <;> omega

/-- Round-half-even of a rational at most -1 is negative. -/
theorem roundHalfEven_neg {x : ℚ} (hx : x ≤ -1) : roundHalfEven x < 0 := by
  have hfl : (⌊x⌋ : ℚ) ≤ x := Int.floor_le x
  simp only [roundHalfEven]
  split
  · have h1 : (⌊x⌋ : ℚ) ≤ -1 := le_trans hfl hx
    have h2 : ⌊x⌋ ≤ -1 := by exact_mod_cast h1
    omega
  · rename_i h1
    push_neg at h1
    have h2 : (⌊x⌋ : ℚ) ≤ -3/2 := by linarith
    have h3 : ⌊x⌋ ≤ -2 := by
      by_contra hcon
      push_neg at hcon
      have h4 : (-1 : ℚ) ≤ (⌊x⌋ : ℚ) := by exact_mod_cast hcon
      linarith
    split
    · omega
    · split <;> omega

/-- Rounding to 2 digits keeps values at least 0.01 positive. -/
theorem round2_pos {x : ℚ} (hx : 1/100 ≤ x) : 0 < round2 x := by
  unfold round2
  have h1 : (1 : ℚ) ≤ x * 100 := by linarith
  have h2 : 0 < roundHalfEven (x * 100) := roundHalfEven_pos h1
  have h3 : (0 : ℚ) < (roundHalfEven (x * 100) : ℚ) := by exact_mod_cast h2
  positivity

/-- Rounding to 2 digits keeps values at most -0.01 negative. -/
theorem round2_neg {x : ℚ} (hx : x ≤ -(1/100)) : round2 x < 0 := by
  unfold round2
  have h1 : x * 100 ≤ -1 := by linarith
  have h2 : roundHalfEven (x * 100) < 0 := roundHalfEven_neg h1
  have h3 : ((roundHalfEven (x * 100)) : ℚ) < 0 := by exact_mod_cast h2
  exact div_neg_of_neg_of_pos h3 (by norm_num)

/-- Rounding zero gives zero. -/
theorem round2_zero : round2 0 = 0 := by
  norm_num [round2, roundHalfEven]

/-- C7 counterexample: the values 0, 1/3000, 2/3000 form a strictly
increasing arithmetic sequence of length 3, yet calculate_trend returns
exactly 0.0 — the unrounded per-hour rate 0.004 rounds to 0.00 at 2
decimal digits — so the trend of a strictly increasing arithmetic
sequence is not always positive. -/
theorem trend_small_increase_rounds_to_zero :
    calculate_trend (mkHistory "fourHour" [0, 1/3000, 2/3000]) "fourHour" = 0
      ∧ (0 : ℚ) < 1/3000 - 0 ∧ (1/3000 - 0 : ℚ) = 2/3000 - 1/3000 := by
  refine ⟨?_, by norm_num, by norm_num⟩
  norm_num [calculate_trend, mkHistory, hget, List.enum, List.enumFrom,
    List.lookup, round2, roundHalfEven]

/-- C7 amended: for an arithmetic value sequence of length at least 2,
calculate_trend is positive when the common difference is at least 1/1200
(so that the per-hour slope survives rounding to 2 digits), exactly 0.0
for a constant sequence, and negative when the common difference is at
most -1/1200. -/
theorem trend_sign_of_arith_sequences (c : String) (a d : ℚ) (n : ℕ)
    (hn : 2 ≤ n) :
    (1/1200 ≤ d → 0 < calculate_trend (mkHistory c (arithSeq a d n)) c) ∧
    calculate_trend (mkHistory c (List.replicate n a)) c = 0 ∧
    (d ≤ -(1/1200) → calculate_trend (mkHistory c (arithSeq a d n)) c < 0) := by
  have hrepl : arithSeq a 0 n = List.replicate n a := by
    unfold arithSeq
    have h1 : ∀ i ∈ List.range n, a + 0 * (i : ℚ) = a := by
      intro i _
      ring
    rw [List.map_congr_left h1, List.map_const', List.length_range]
  refine ⟨?_, ?_, ?_⟩
  · intro hd
    rw [trend_arith c a d n hn]
    apply round2_pos
    linarith
  · rw [← hrepl, trend_arith c a 0 n hn, zero_mul, round2_zero]
  · intro hd
    rw [trend_arith c a d n hn]
    apply round2_neg
    linarith

/-- Witness for the amended C7 at the sequences 22,23,24 and 24,23,22 and
the constant 22,22,22. -/
theorem trend_sign_of_arith_sequences_witness :
    0 < calculate_trend (mkHistory "fourHour" (arithSeq 22 1 3)) "fourHour" ∧
    calculate_trend (mkHistory "fourHour" (List.replicate 3 (22 : ℚ)))
      "fourHour" = 0 ∧
    calculate_trend (mkHistory "fourHour" (arithSeq 22 (-1) 3)) "fourHour"
      < 0 := by
  have h1 := trend_sign_of_arith_sequences "fourHour" 22 1 3 (by norm_num)
  have h2 := trend_sign_of_arith_sequences "fourHour" 22 (-1) 3 (by norm_num)
  exact ⟨h1.1 (by norm_num), h1.2.1, h2.2.2 (by norm_num)⟩

/-- C10: a history point lacking the requested cap field contributes the
value 0 to the regression rather than being skipped: the trend is
unchanged when every point is replaced by a singleton point carrying the
extracted value (0 when missing), a missing field extracts to 0, and one
missing sample can swing the rate sharply: 50, 50, missing gives rate
-300.0 per hour where 50, 50, 50 gives 0.0. -/
theorem trend_missing_field_contributes_zero (h : List HistPoint)
    (c : String) :
    calculate_trend h c
      = calculate_trend (h.map (fun p => [(c, hget p c)])) c ∧
    (∀ p : HistPoint, p.lookup c = none → hget p c = 0) ∧
    calculate_trend [[("fourHour", 50)], [("fourHour", 50)], []] "fourHour"
      = -300 ∧
    calculate_trend
      [[("fourHour", 50)], [("fourHour", 50)], [("fourHour", 50)]]
      "fourHour" = 0 := by
  refine ⟨?_, ?_,
    by norm_num [calculate_trend, hget, List.enum, List.enumFrom, List.lookup,
      round2, roundHalfEven],
    by norm_num [calculate_trend, hget, List.enum, List.enumFrom, List.lookup,
      round2, roundHalfEven]⟩
  · rw [trend_eq_spec, trend_eq_spec]
    congr 1
    rw [List.map_map]
    have h1 : ∀ p ∈ h, ((fun p => hget p c) ∘ fun p => [(c, hget p c)]) p
        = (fun p => hget p c) p := by
      intro p _
      simp [hget_single]
    rw [List.map_congr_left h1]
  · intro p hp
    simp [hget, hp]

/-- Witness for C10: a point carrying only the weekly field contributes 0
to the four-hour trend and is not skipped. -/
theorem trend_missing_field_contributes_zero_witness :
    calculate_trend [[("oneWeek", 3)], [("fourHour", 50)]] "fourHour"
      = calculate_trend
          (([[("oneWeek", 3)], [("fourHour", 50)]] : List HistPoint).map
            (fun p => [("fourHour", hget p "fourHour")])) "fourHour" ∧
    hget [("oneWeek", 3)] "fourHour" = 0 := by
  have h1 := trend_missing_field_contributes_zero
    [[("oneWeek", 3)], [("fourHour", 50)]] "fourHour"
  exact ⟨h1.1, h1.2.1 [("oneWeek", 3)] (by decide)⟩

/-- C4: estimate_time_to_cap returns absent exactly when the rate is
nonpositive, the current value is at or above the cap limit, or the
computed hours remaining (capLimit - currentValue)/ratePerHour is
negative; otherwise it returns the instant now plus the hours remaining,
which is strictly after now — a returned instant is never in the past. -/
theorem saturation_absent_iff_guard (now cu r cl : ℚ) :
    (estimate_time_to_cap now cu r cl = none ↔
      r ≤ 0 ∨ cl ≤ cu ∨ (cl - cu) / r < 0) ∧
    (∀ t, estimate_time_to_cap now cu r cl = some t →
      t = now + (cl - cu) / r ∧ now < t) := by
  unfold estimate_time_to_cap
  by_cases h1 : r ≤ 0
  · simp only [if_pos h1]
    exact ⟨⟨fun _ => Or.inl h1, fun _ => trivial⟩, fun t ht => by cases ht⟩
  · rw [if_neg h1]
    push_neg at h1
    by_cases h2 : cl - cu ≤ 0
    · simp only [if_pos h2]
      refine ⟨⟨fun _ => Or.inr (Or.inl (by linarith)), fun _ => trivial⟩,
        fun t ht => by cases ht⟩
    · rw [if_neg h2]
      push_neg at h2
      have h3 : ¬ (cl - cu) / r < 0 := by
        push_neg
        exact le_of_lt (div_pos h2 h1)
      rw [if_neg h3]
      constructor
      · constructor
        · intro h
          exact absurd h (Option.some_ne_none _)
        · intro h
          exfalso
          rcases h with h | h | h
          · linarith
          · linarith
          · exact h3 h
      · intro t ht
        have heq : now + (cl - cu) / r = t := Option.some.inj ht
        refine ⟨heq.symm, ?_⟩
        have hdiv : 0 < (cl - cu) / r := div_pos h2 h1
        linarith

/-- Witness for C4 at current 50, rate 10, cap 100 from now 0: the
saturation instant is 5 hours from now, in the future. -/
theorem saturation_absent_iff_guard_witness :
    (5 : ℚ) = 0 + (100 - 50) / 10 ∧ (0 : ℚ) < 5 := by
  exact (saturation_absent_iff_guard 0 50 10 100).2 5
    (by norm_num [estimate_time_to_cap])

/-- C5: calculate_projection_at_time returns
min(current + rate · hoursUntil(target), capLimit) for a parsed target not
in the past — clamped at the cap from above but never from below, so a
negative rate with a strictly future target yields a value strictly below
current; it returns current unchanged for a past target; and it returns
current unchanged when the target fails to parse. -/
theorem projection_at_time_clamped (now cu r cl : ℚ) (tt : Option ℚ) :
    (∀ t, tt = some t → now ≤ t →
      calculate_projection_at_time now cu r tt cl
        = min (cu + r * (t - now)) cl) ∧
    (∀ t, tt = some t → t < now →
      calculate_projection_at_time now cu r tt cl = cu) ∧
    (tt = none → calculate_projection_at_time now cu r tt cl = cu) ∧
    (∀ t, tt = some t → now < t → r < 0 →
      calculate_projection_at_time now cu r tt cl < cu) := by
  refine ⟨?_, ?_, ?_, ?_⟩
  · intro t ht hle
    subst ht
    simp only [calculate_projection_at_time]
    rw [if_neg (by push_neg; linarith : ¬ t - now < 0)]
  · intro t ht hlt
    subst ht
    simp only [calculate_projection_at_time]
    rw [if_pos (by linarith : t - now < 0)]
  · intro ht
    subst ht
    rfl
  · intro t ht hlt hr
    subst ht
    simp only [calculate_projection_at_time]
    rw [if_neg (by push_neg; linarith : ¬ t - now < 0)]
    have h0 : r * (t - now) < 0 :=
      mul_neg_of_neg_of_pos hr (by linarith)
    calc min (cu + r * (t - now)) cl ≤ cu + r * (t - now) := min_le_left _ _
      _ < cu := by linarith

/-- Witness for C5 at current 50, rate 10 (or -10), cap 100, now 0, and
targets one hour ahead, one hour back, and unparseable. -/
theorem projection_at_time_clamped_witness :
    calculate_projection_at_time 0 50 10 (some 1) 100
      = min (50 + 10 * (1 - 0)) 100 ∧
    calculate_projection_at_time 0 50 10 (some (-1)) 100 = 50 ∧
    calculate_projection_at_time 0 50 10 none 100 = 50 ∧
    calculate_projection_at_time 0 50 (-10) (some 1) 100 < 50 := by
  refine ⟨(projection_at_time_clamped 0 50 10 100 (some 1)).1 1 rfl
      (by norm_num),
    (projection_at_time_clamped 0 50 10 100 (some (-1))).2.1 (-1) rfl
      (by norm_num),
    (projection_at_time_clamped 0 50 10 100 none).2.2.1 rfl,
    (projection_at_time_clamped 0 50 (-10) 100 (some 1)).2.2.2 1 rfl
      (by norm_num) (by norm_num)⟩

/-- Looking up a key at the head of an association list. -/
theorem lookup_cons_self {β : Type} (a : String) (b : β)
    (l : List (String × β)) : ((a, b) :: l).lookup a = some b := by
  simp [List.lookup]

/-- Looking up a key different from the head key skips the head. -/
theorem lookup_cons_ne {β : Type} (a k : String) (b : β)
    (l : List (String × β)) (h : k ≠ a) :
    ((a, b) :: l).lookup k = l.lookup k := by
  have hb : (k == a) = false := beq_eq_false_iff_ne.mpr h
  simp [List.lookup, hb]

/-- A key not in ks is not found in the pair list built by filterMap over
ks. -/
theorem lookup_filterMap_pairs_of_not_mem {β : Type}
    (f : String → Option β) :
    ∀ (ks : List String) (ct : String), ct ∉ ks →
      (ks.filterMap (fun k => (f k).map (fun p => (k, p)))).lookup ct
        = none
  | [], _, _ => rfl
  | k :: ks, ct, hct => by
    have hne : ct ≠ k := by
      intro h
      exact hct (h ▸ List.mem_cons_self k ks)
    have hmem : ct ∉ ks := fun h => hct (List.mem_cons_of_mem k h)
    rw [List.filterMap_cons]
    rcases hfk : f k with _ | p
    · simp only [hfk, Option.map_none']
      exact lookup_filterMap_pairs_of_not_mem f ks ct hmem
    · simp only [hfk, Option.map_some']
      rw [lookup_cons_ne k ct p _ hne]
      exact lookup_filterMap_pairs_of_not_mem f ks ct hmem

/-- Looking up a member of a duplicate-free key list in the pair list
built by filterMap over it returns the optional value at that key. -/
theorem lookup_filterMap_pairs {β : Type} (f : String → Option β) :
    ∀ (ks : List String) (ct : String), ct ∈ ks → ks.Nodup →
      (ks.filterMap (fun k => (f k).map (fun p => (k, p)))).lookup ct
        = f ct
  | [], ct, hct, _ => absurd hct (List.not_mem_nil ct)
  | k :: ks, ct, hct, hnd => by
    rw [List.filterMap_cons]
    rcases List.nodup_cons.mp hnd with ⟨hk, hnd2⟩
    by_cases hek : ct = k
    · subst hek
      rcases hfk : f ct with _ | p
      · simp only [hfk, Option.map_none']
        rw [lookup_filterMap_pairs_of_not_mem f ks ct hk]
      · simp only [hfk, Option.map_some']
        rw [lookup_cons_self]
    · have hmem : ct ∈ ks := by
        rcases List.mem_cons.mp hct with h | h
        · exact absurd h hek
        · exact h
      rcases hfk : f k with _ | p
      · simp only [hfk, Option.map_none']
        exact lookup_filterMap_pairs f ks ct hmem hnd2
      · simp only [hfk, Option.map_some']
        rw [lookup_cons_ne k ct p _ hek]
        exact lookup_filterMap_pairs f ks ct hmem hnd2

/-- A cap whose resetTime is absent is skipped by the loop body. -/
theorem projection_for_cap_none (now : ℚ) (historical : List HistPoint)
    (cs : List (String × CapData)) (ct : String)
    (hres : ((cs.lookup ct).getD ⟨0, none⟩).resetTime = none) :
    projection_for_cap now historical cs ct = none := by
  simp only [projection_for_cap, hres]

/-- A cap whose resetTime is present yields a projection record, and the
presence of averageRatePerDay in it equals the Week test on the cap
type. -/
theorem projection_for_cap_some (now : ℚ) (historical : List HistPoint)
    (cs : List (String × CapData)) (ct : String) (rt : ℚ)
    (hres : ((cs.lookup ct).getD ⟨0, none⟩).resetTime = some rt) :
    ∃ p, projection_for_cap now historical cs ct = some p ∧
      p.averageRatePerDay.isSome = hasWeek ct := by
  simp only [projection_for_cap, hres]
  cases hw : hasWeek ct
  · refine ⟨_, rfl, ?_⟩
    simp [hw]
  · refine ⟨_, rfl, ?_⟩
    simp [hw]

/-- C3 counterexample: on a history of 3 samples (22, 23, 24) for the
short-window cap at current value 24 with no resetTime supplied,
calculate_projections returns an empty mapping — the cap is skipped by
the continue on a missing resetTime, so its projection is absent rather
than present with projectedUsageAtReset absent. -/
theorem projections_skip_cap_without_reset_time :
    calculate_projections 0
      { historicalData :=
          [[("fourHour", 22)], [("fourHour", 23)], [("fourHour", 24)]],
        currentState :=
          [("fourHour", { usagePercent := 24, resetTime := none })] }
      = some [] := by
  rfl

/-- C3 amended: calculate_projections returns absent when the history has
fewer than 2 samples; on history of length at least 2 with a non-empty
currentState the result is present, and for each cap type the per-cap
projection is present exactly when the resetTime of that cap is supplied — a
cap without resetTime is skipped entirely — and a present projection
carries averageRatePerDay exactly for the weekly caps. -/
theorem projections_present_iff_reset_time (now : ℚ) (data : MonitorData) :
    (data.historicalData.length < 2 → calculate_projections now data = none) ∧
    (2 ≤ data.historicalData.length → data.currentState ≠ [] →
      ∃ projs, calculate_projections now data = some projs ∧
        ∀ ct ∈ cap_types,
          (((data.currentState.lookup ct).getD ⟨0, none⟩).resetTime = none →
            projs.lookup ct = none) ∧
          ∀ rt, ((data.currentState.lookup ct).getD ⟨0, none⟩).resetTime
              = some rt →
            ∃ p, projs.lookup ct = some p ∧
              (p.averageRatePerDay.isSome = true ↔
                ct = "oneWeek" ∨ ct = "opusOneWeek")) := by
  constructor
  · intro hlt
    simp only [calculate_projections, if_pos hlt]
  · intro hge hcs
    have hlt : ¬ data.historicalData.length < 2 := by omega
    simp only [calculate_projections, if_neg hlt, if_neg hcs]
    refine ⟨_, rfl, ?_⟩
    intro ct hct
    have hnd : cap_types.Nodup := by decide
    have hlook : (cap_types.filterMap (fun cap_type =>
        (projection_for_cap now data.historicalData data.currentState
          cap_type).map (fun p => (cap_type, p)))).lookup ct
        = projection_for_cap now data.historicalData data.currentState ct :=
      lookup_filterMap_pairs _ cap_types ct hct hnd
    constructor
    · intro hres
      rw [hlook, projection_for_cap_none now _ _ ct hres]
    · intro rt hres
      obtain ⟨p, hp, hweek⟩ :=
        projection_for_cap_some now data.historicalData data.currentState
          ct rt hres
      refine ⟨p, ?_, ?_⟩
      · rw [hlook, hp]
      · rw [hweek]
        have hmem : ct = "fourHour" ∨ ct = "oneWeek" ∨ ct = "opusOneWeek" := by
          simpa [cap_types] using hct
        rcases hmem with h | h | h <;> subst h <;> decide

/-- Witness for the amended C3 at the end-to-end scenario history 22, 23,
24 with a resetTime supplied for the short-window cap. -/
theorem projections_present_iff_reset_time_witness :
    ∃ projs, calculate_projections 0
        { historicalData :=
            [[("fourHour", 22)], [("fourHour", 23)], [("fourHour", 24)]],
          currentState :=
            [("fourHour", { usagePercent := 24, resetTime := some 4 })] }
        = some projs ∧
      ∀ ct ∈ cap_types,
        ((([("fourHour",
              ({ usagePercent := 24, resetTime := some 4 } : CapData))].lookup
              ct).getD ⟨0, none⟩).resetTime = none →
          projs.lookup ct = none) ∧
        ∀ rt, (([("fourHour",
              ({ usagePercent := 24, resetTime := some 4 } : CapData))].lookup
              ct).getD ⟨0, none⟩).resetTime = some rt →
          ∃ p, projs.lookup ct = some p ∧
            (p.averageRatePerDay.isSome = true ↔
              ct = "oneWeek" ∨ ct = "opusOneWeek") := by
  exact (projections_present_iff_reset_time 0
    { historicalData :=
        [[("fourHour", 22)], [("fourHour", 23)], [("fourHour", 24)]],
      currentState :=
        [("fourHour", { usagePercent := 24, resetTime := some 4 })] }).2
    (by norm_num) (by decide)

/-- C8: the history series is bounded to 2016 points: a series at or
below the bound is returned unchanged; when the bound is exceeded the
trim keeps exactly the last 2016 elements, of length 2016, and the
dropped part is precisely the oldest prefix — retention is FIFO and the
retained samples keep their original relative order; the unconditional
scraper slice agrees with trim_historical_data. -/
theorem trim_keeps_last_bound (l : List HistPoint) :
    (l.length ≤ 2016 → trim_historical_data l = l) ∧
    (∀ k, l.length = 2016 + k → 0 < k →
      trim_historical_data l = l.drop k ∧
      (trim_historical_data l).length = 2016 ∧
      l.take k ++ trim_historical_data l = l) ∧
    trim_slice l = trim_historical_data l := by
  unfold trim_historical_data trim_slice MAX_HISTORICAL_POINTS
  by_cases h : 2016 < l.length
  · rw [if_pos h]
    refine ⟨fun hle => absurd h (by omega), fun k hk hkpos => ?_, rfl⟩
    have hsub : l.length - 2016 = k := by omega
    rw [hsub]
    refine ⟨rfl, ?_, List.take_append_drop k l⟩
    rw [List.length_drop]
    omega
  · rw [if_neg h]
    refine ⟨fun _ => rfl, fun k hk hkpos => absurd h (by omega), ?_⟩
    have h0 : l.length - 2016 = 0 := by omega
    rw [h0, List.drop_zero]

/-- A series of 2017 points exceeds the 2016-point bound by one. -/
theorem replicate_2017_exceeds_bound :
    (List.replicate 2017 ([] : HistPoint)).length = 2016 + 1 := by
  rw [List.length_replicate]

/-- A series of 5 points is within the 2016-point bound. -/
theorem replicate_5_within_bound :
    (List.replicate 5 ([] : HistPoint)).length ≤ 2016 := by
  rw [List.length_replicate]
  omega

/-- Witness for C8 at a series of 2017 points (trimmed to the last 2016)
and a series of 5 points (unchanged). -/
theorem trim_keeps_last_bound_witness :
    (trim_historical_data (List.replicate 2017 ([] : HistPoint))
        = (List.replicate 2017 ([] : HistPoint)).drop 1 ∧
      (trim_historical_data (List.replicate 2017 ([] : HistPoint))).length
        = 2016 ∧
      (List.replicate 2017 ([] : HistPoint)).take 1
        ++ trim_historical_data (List.replicate 2017 ([] : HistPoint))
        = List.replicate 2017 ([] : HistPoint)) ∧
    trim_historical_data (List.replicate 5 ([] : HistPoint))
      = List.replicate 5 ([] : HistPoint) :=
  ⟨(trim_keeps_last_bound (List.replicate 2017 ([] : HistPoint))).2.1 1
      replicate_2017_exceeds_bound (by omega),
    (trim_keeps_last_bound (List.replicate 5 ([] : HistPoint))).1
      replicate_5_within_bound⟩

/-- The state-passing SMA returns its value with the history unchanged. -/
theorem sma_state_eq (vs : List ℚ) (w : ℕ) :
    calculate_sma_state vs w = (calculate_sma vs w, vs) := by
  simp only [calculate_sma_state, calculate_sma]
  split <;> split <;> rfl

/-- The state-passing trend returns its value with the history
unchanged. -/
theorem trend_state_eq (h : List HistPoint) (c : String) :
    calculate_trend_state h c = (calculate_trend h c, h) := by
  simp only [calculate_trend_state, calculate_trend]
  split
  · rfl
  · split <;> rfl

/-- The state-passing projections return their value with the history
unchanged. -/
theorem projections_state_eq (now : ℚ) (data : MonitorData) :
    calculate_projections_state now data
      = (calculate_projections now data, data.historicalData) := by
  simp only [calculate_projections_state, calculate_projections]
  split
  · rfl
  · split <;> rfl

/-- C9: the projection operations are pure readers of the history: in the
state-passing embedding, where the history list is threaded as the
mutable state each source statement acts on, calculate_sma,
calculate_trend and calculate_projections each return exactly the
history they received, together with the same value the plain functions
compute — they never mutate the history. -/
theorem projection_ops_leave_history_unchanged (vs : List ℚ) (w : ℕ)
    (h : List HistPoint) (c : String) (now : ℚ) (data : MonitorData) :
    calculate_sma_state vs w = (calculate_sma vs w, vs) ∧
    calculate_trend_state h c = (calculate_trend h c, h) ∧
    calculate_projections_state now data
      = (calculate_projections now data, data.historicalData) :=
  ⟨sma_state_eq vs w, trend_state_eq h c, projections_state_eq now data⟩

end ClaudeMonitor
